import Mathlib

/-!
Verification of the rank-partitioned view containers of the repository
(`toponetx/classes/reportviews.py`: `HyperEdgeView`, `SimplexView`,
`CellView`) and the graph-to-clique-complex transform exercised by
`src/test/transform/test_graph_to_simplicial_complex.py`.

Modelling conventions:
* atoms (graph node ids) are naturals;
* a Python `frozenset` of atoms (an ElementSet) is a `Finset ℕ`;
* a Python `dict` is an association list whose keys are unique;
* a raised exception is `Option.none`; a normal return value is `some`;
* property payloads are opaque and modelled by a natural-number id;
* the Python `sorted` builtin on keys is modelled by `List.insertionSort` over a fixed
  total order `keyLe` on element sets (lexicographic on the sorted atom list);
* `HyperEdge` / `Simplex` entity arguments implement iteration over their
  elements, so they are subsumed by the iterable input case.
-/

/-- A dynamically typed Python argument, coarsened to the three shapes the
view code distinguishes: an iterable of atoms, a hashable non-iterable atom,
and an object that is neither iterable nor hashable. -/
inductive PyObj where
  | iter (xs : List ℕ)
  | atom (a : ℕ)
  | bad
deriving DecidableEq

/-- `isinstance(o, Iterable)`. -/
def PyObj.isIterable : PyObj → Bool
  | .iter _ => true
  | .atom _ => false
  | .bad => false

/-- `isinstance(o, Hashable)`. Atoms are hashable; the `bad` shape is not.
(Hashability of an iterable is irrelevant to the code paths modelled here,
since every branch tests `Iterable` first; we fix it to `true`.) -/
def PyObj.isHashable : PyObj → Bool
  | .iter _ => true
  | .atom _ => true
  | .bad => false

/-- The ascending list of atoms of an element set. -/
def keyList (s : Finset ℕ) : List ℕ :=
  s.sort (· ≤ ·)

/-- Total order on element sets used to model the Python `sorted` builtin on keys:
lexicographic comparison of the sorted atom lists. -/
def keyLe (a b : Finset ℕ) : Prop :=
  keyList a ≤ keyList b

instance : DecidableRel keyLe := fun a b =>
  inferInstanceAs (Decidable (keyList a ≤ keyList b))

instance : IsTotal (Finset ℕ) keyLe :=
  ⟨fun a b => le_total (keyList a) (keyList b)⟩

instance : IsTrans (Finset ℕ) keyLe :=
  ⟨fun _ _ _ hab hbc => le_trans hab hbc⟩

/-- Model of the Python `sorted` builtin on a list of element-set keys. -/
def sortKeys (l : List (Finset ℕ)) : List (Finset ℕ) :=
  List.insertionSort keyLe l

/-- `HyperEdgeView`: `hyperedge_dict` maps a rank to a bucket, and a bucket
maps element-set keys to property payloads.  Python dict keys are unique,
which is recorded by the `Nodup` field. -/
structure HyperEdgeView where
  hyperedge_dict : List (ℕ × List (Finset ℕ × ℕ))
  ranks_nodup : (hyperedge_dict.map Prod.fst).Nodup

/-- `HyperEdgeView.allranks`: `sorted(list(self.hyperedge_dict.keys()))`. -/
def HyperEdgeView.allranks (hv : HyperEdgeView) : List ℕ :=
  List.insertionSort (· ≤ ·) (hv.hyperedge_dict.map Prod.fst)

/-- `self.hyperedge_dict[r]`, with a missing rank read as the empty bucket
(callers below that would raise `KeyError` on a missing rank model that
explicitly). -/
def HyperEdgeView.bucket (hv : HyperEdgeView) (r : ℕ) : List (Finset ℕ × ℕ) :=
  ((hv.hyperedge_dict.find? (fun p => p.1 == r)).map Prod.snd).getD []

/-- The element-set keys stored at rank `r`. -/
def HyperEdgeView.bucketKeys (hv : HyperEdgeView) (r : ℕ) : List (Finset ℕ) :=
  (hv.bucket r).map Prod.fst

/-- `HyperEdgeView._to_frozen_set`: iterables are frozen directly, a hashable
non-iterable becomes a singleton, and anything else reaches the final
`frozenset(hyperedge)` call which raises `TypeError` on a non-iterable. -/
def HyperEdgeView.to_frozen_set : PyObj → Option (Finset ℕ)
  | .iter xs => some xs.toFinset
  | .atom a => some {a}
  | .bad => Option.none

/-- `HyperEdgeView.get_rank` on an already-normalized element set (the shape
`__getitem__` always passes): an empty set returns rank `0` immediately,
otherwise the occupied ranks are scanned in ascending order and the first
bucket containing the key wins; `Option.none` models the `KeyError`. -/
def HyperEdgeView.get_rank (hv : HyperEdgeView) (s : Finset ℕ) : Option ℕ :=
  if s = ∅ then some 0
  else hv.allranks.find? (fun i => decide (s ∈ hv.bucketKeys i))

/-- `HyperEdgeView.__getitem__`: normalize, find the rank, then read the
payload stored at that rank under the normalized key. -/
def HyperEdgeView.getitem (hv : HyperEdgeView) (o : PyObj) : Option ℕ :=
  (HyperEdgeView.to_frozen_set o).bind fun s =>
    (hv.get_rank s).bind fun r =>
      ((hv.bucket r).find? (fun p => p.1 == s)).map Prod.snd

/-- `HyperEdgeView.__contains__`: an empty view answers `False` for every
input; an iterable is frozen and searched across all buckets; a hashable
non-iterable is looked up in `self.hyperedge_dict[0]`, which raises
`KeyError` when rank `0` is not occupied; anything else answers `False`. -/
def HyperEdgeView.contains (hv : HyperEdgeView) (o : PyObj) : Option Bool :=
  if hv.hyperedge_dict = [] then some false
  else
    match o with
    | .iter xs =>
        if xs = [] then some false
        else some (hv.hyperedge_dict.any
          (fun p => decide (xs.toFinset ∈ p.2.map Prod.fst)))
    | .atom a =>
        if 0 ∈ hv.hyperedge_dict.map Prod.fst then
          some (decide (({a} : Finset ℕ) ∈ hv.bucketKeys 0))
        else Option.none
    | .bad => some false

/-- `HyperEdgeView.skeleton`.  The `upper`/`lower` branches reproduce the
source verbatim: the loop variable `rank` shadows the `rank` parameter, so
the guard compares the loop variable with itself.  `Option.none` models the
`TopoNetXError` raised for an unrecognized `level`. -/
def HyperEdgeView.skeleton (hv : HyperEdgeView) (rank : ℕ) (level : Option String) :
    Option (List (Finset ℕ)) :=
  if level = Option.none ∨ level = some "equal" then
    some (if rank ∈ hv.allranks then sortKeys (hv.bucketKeys rank) else [])
  else if level = some "upper" ∨ level = some "up" then
    some (sortKeys (hv.allranks.foldl
      (fun elements rank => if rank ≥ rank then elements ++ hv.bucketKeys rank else elements) []))
  else if level = some "lower" ∨ level = some "down" then
    some (sortKeys (hv.allranks.foldl
      (fun elements rank => if rank ≤ rank then elements ++ hv.bucketKeys rank else elements) []))
  else Option.none

/-- The concatenation, in ascending rank order, of the keys of every
occupied rank. -/
def HyperEdgeView.allKeysAsc (hv : HyperEdgeView) : List (Finset ℕ) :=
  hv.allranks.flatMap hv.bucketKeys

/-- `SimplexView`: `faces_dict` is a list of buckets indexed by dimension,
each bucket holding the element-set keys of the simplices of that
dimension.  The documented invariant `len(faces_dict) == max_dim + 1`
(maintained by `SimplicialComplex`) is recorded as a field. -/
structure SimplexView where
  max_dim : ℤ
  faces_dict : List (List (Finset ℕ))
  dim_inv : (faces_dict.length : ℤ) = max_dim + 1

/-- `SimplexView.__contains__`: an iterable is frozen and, when its size is
within `(0, max_dim + 1]`, looked up in `faces_dict[len(item) - 1]`; a
hashable non-iterable is looked up in `faces_dict[0]`, which raises
`IndexError` on an empty view; anything else answers `False`. -/
def SimplexView.contains (sv : SimplexView) (o : PyObj) : Option Bool :=
  match o with
  | .iter xs =>
      let s := xs.toFinset
      if 0 < s.card ∧ (s.card : ℤ) ≤ sv.max_dim + 1 then
        (sv.faces_dict[s.card - 1]?).map (fun bucket => decide (s ∈ bucket))
      else some false
  | .atom a =>
      (sv.faces_dict[0]?).map (fun bucket => decide (({a} : Finset ℕ) ∈ bucket))
  | .bad => some false

/-- `CellView`: `_cells` maps the element set of a cell boundary to the
ordered list of payloads of the cell instances inserted under it (insertion
order; one entry per stored identity).  Python dict keys are unique. -/
structure CellView where
  cells : List (Finset ℕ × List ℕ)
  keys_nodup : (cells.map Prod.fst).Nodup

/-- `self._cells[s]`: the payload list stored under the element set `s`,
or `Option.none` when `s` is not a key (`KeyError`). -/
def CellView.getBucket (cv : CellView) (s : Finset ℕ) : Option (List ℕ) :=
  (cv.cells.find? (fun p => p.1 == s)).map Prod.snd

/-- `CellView.__getitem__` on a key resolving to the element set `s`: a
missing key raises `KeyError`; a bucket with exactly one identity yields
that single payload, a bucket with several identities yields the ordered
list of all of them. -/
def CellView.getitem (cv : CellView) (s : Finset ℕ) : Option (ℕ ⊕ List ℕ) :=
  match cv.getBucket s with
  | Option.none => Option.none
  | some ps =>
      match ps with
      | [p] => some (Sum.inl p)
      | _ => some (Sum.inr ps)

/-- `CellView.__len__`: the total number of stored identities, summed over
all element-set buckets. -/
def CellView.clen (cv : CellView) : ℕ :=
  (cv.cells.map (fun p => p.2.length)).sum

/-- `CellView.__contains__`: non-iterables answer `False`; an iterable is
resolved to its element set and tested against the outer keys. -/
def CellView.contains (cv : CellView) (o : PyObj) : Option Bool :=
  match o with
  | .iter xs => some (decide (xs.toFinset ∈ cv.cells.map Prod.fst))
  | .atom _ => some false
  | .bad => some false

/-- Appending a payload to the bucket of `s` leaves the outer keys of a
cell table unchanged. -/
theorem map_fst_update (cells : List (Finset ℕ × List ℕ)) (s : Finset ℕ) (p : ℕ) :
    (cells.map (fun q => if q.1 = s then (q.1, q.2 ++ [p]) else q)).map Prod.fst =
      cells.map Prod.fst := by
  rw [List.map_map]
  refine List.map_congr_left ?_
  intro q _
  simp only [Function.comp_apply]
  by_cases hq : q.1 = s
  · rw [if_pos hq]
  · rw [if_neg hq]

/-- Appending a bucket for a fresh key keeps the outer keys unique. -/
theorem nodup_append_fresh (cells : List (Finset ℕ × List ℕ)) (s : Finset ℕ) (p : ℕ)
    (hnd : (cells.map Prod.fst).Nodup) (hs : s ∉ cells.map Prod.fst) :
    ((cells ++ [(s, [p])]).map Prod.fst).Nodup := by
  rw [List.map_append, List.nodup_append]
  refine ⟨hnd, by simp, ?_⟩
  intro a ha hb
  simp only [List.map_cons, List.map_nil, List.mem_singleton] at hb
  subst hb
  exact hs ha

/-- Modelled from the spec: `CellView.insert_cell` is code of this
repository that is not under `src/`.  Per the spec, the canonical element
set of the ordered boundary is the outer key, and each insertion creates a
new identity under the bucket of that key, never overwriting an existing one. -/
def CellView.insert_cell (cv : CellView) (boundary : List ℕ) (p : ℕ) : CellView :=
  if h : boundary.toFinset ∈ cv.cells.map Prod.fst then
    ⟨cv.cells.map (fun q => if q.1 = boundary.toFinset then (q.1, q.2 ++ [p]) else q),
      by rw [map_fst_update]; exact cv.keys_nodup⟩
  else
    ⟨cv.cells ++ [(boundary.toFinset, [p])],
      nodup_append_fresh cv.cells boundary.toFinset p cv.keys_nodup h⟩

/-- An undirected graph given by explicit node and edge lists. -/
structure SGraph where
  nodes : List ℕ
  edges : List (ℕ × ℕ)

/-- Adjacency: the pair appears in the edge list in either orientation. -/
def SGraph.adj (G : SGraph) (a b : ℕ) : Prop :=
  (a, b) ∈ G.edges ∨ (b, a) ∈ G.edges

instance (G : SGraph) (a b : ℕ) : Decidable (G.adj a b) :=
  inferInstanceAs (Decidable (_ ∨ _))

/-- The node set of the graph: declared nodes plus edge endpoints. -/
def SGraph.nodeFinset (G : SGraph) : Finset ℕ :=
  G.nodes.toFinset ∪ (G.edges.map Prod.fst).toFinset ∪ (G.edges.map Prod.snd).toFinset

/-- A clique: a non-empty set of nodes that are pairwise adjacent. -/
def SGraph.isClique (G : SGraph) (s : Finset ℕ) : Prop :=
  s.Nonempty ∧ ∀ a ∈ s, ∀ b ∈ s, a ≠ b → G.adj a b

instance (G : SGraph) : DecidablePred G.isClique := fun s =>
  inferInstanceAs (Decidable (_ ∧ _))

/-- The size cap imposed by the optional `max_dim` argument: no cap when it
is absent, otherwise only cliques with at most `max_dim` nodes survive. -/
def capOk (max_dim : Option ℕ) (s : Finset ℕ) : Prop :=
  match max_dim with
  | Option.none => True
  | some d => s.card ≤ d

instance (max_dim : Option ℕ) (s : Finset ℕ) : Decidable (capOk max_dim s) := by
  unfold capOk
  cases max_dim
  · exact inferInstanceAs (Decidable True)
  · exact inferInstanceAs (Decidable (_ ≤ _))

/-- Modelled from the spec: `graph_to_clique_complex` is code of this
repository that is not under `src/` (only its test is).  Per the spec
scenario and the in-src test, the resulting simplicial complex consists of
every non-empty clique of the graph (the downward closure of the maximal
cliques); with `max_dim` given, only cliques of size at most `max_dim`
survive (for `max_dim = 2` the test demands dimension 1 — edges only). -/
def graph_to_clique_complex (G : SGraph) (max_dim : Option ℕ) : Finset (Finset ℕ) :=
  G.nodeFinset.powerset.filter (fun s => G.isClique s ∧ capOk max_dim s)

/-- The dimension reported by a simplicial complex: the maximal face size
minus one (`-1` on the empty complex). -/
def scDim (F : Finset (Finset ℕ)) : ℤ :=
  Int.ofNat (F.sup Finset.card) - 1

/-- A rank with no entry in the dictionary has an empty bucket. -/
theorem HyperEdgeView.bucketKeys_of_not_mem (hv : HyperEdgeView) (r : ℕ)
    (h : r ∉ hv.hyperedge_dict.map Prod.fst) : hv.bucketKeys r = [] := by
  unfold HyperEdgeView.bucketKeys HyperEdgeView.bucket
  cases hfind : hv.hyperedge_dict.find? (fun p => p.1 == r) with
  | none => rfl
  | some pr =>
      exfalso
      have h1 : pr.1 = r := by simpa using List.find?_some hfind
      exact h (h1 ▸ List.mem_map_of_mem Prod.fst (List.mem_of_find?_eq_some hfind))

/-- Membership in `allranks` is membership among the dictionary keys. -/
theorem HyperEdgeView.mem_allranks (hv : HyperEdgeView) (r : ℕ) :
    r ∈ hv.allranks ↔ r ∈ hv.hyperedge_dict.map Prod.fst :=
  (List.perm_insertionSort (· ≤ ·) _).mem_iff

/-- `allranks` is ascending. -/
theorem HyperEdgeView.allranks_sorted (hv : HyperEdgeView) :
    hv.allranks.Sorted (· ≤ ·) :=
  List.sorted_insertionSort (· ≤ ·) _

/-- On an ascending list, `find?` returns a minimal element among those
satisfying the predicate. -/
theorem find?_sorted_first {p : ℕ → Bool} :
    ∀ {l : List ℕ}, l.Sorted (· ≤ ·) → ∀ {a : ℕ}, l.find? p = some a →
      ∀ b ∈ l, p b = true → a ≤ b := by
  intro l
  induction l with
  | nil => intro _ a hfind; simp [List.find?] at hfind
  | cons x t ih =>
      intro hsort a hfind b hb hpb
      by_cases hpx : p x = true
      · rw [List.find?_cons_of_pos t hpx] at hfind
        cases hfind
        rcases List.mem_cons.mp hb with hbx | hbt
        · exact hbx ▸ le_refl x
        · exact (List.sorted_cons.mp hsort).1 b hbt
      · rw [List.find?_cons_of_neg t hpx] at hfind
        rcases List.mem_cons.mp hb with hbx | hbt
        · exact absurd (hbx ▸ hpb) hpx
        · exact ih (List.sorted_cons.mp hsort).2 hfind b hbt hpb

/-- Folding with the always-true guard `rank ≥ rank` concatenates every
bucket. -/
theorem foldl_ge_guard (f : ℕ → List (Finset ℕ)) :
    ∀ (l : List ℕ) (init : List (Finset ℕ)),
      l.foldl (fun elements rank => if rank ≥ rank then elements ++ f rank else elements)
          init = init ++ l.flatMap f := by
  intro l
  induction l with
  | nil => intro init; simp
  | cons r t ih =>
      intro init
      rw [List.foldl_cons, if_pos (le_refl r), List.flatMap_cons, ih, List.append_assoc]

/-- Folding with the always-true guard `rank ≤ rank` concatenates every
bucket. -/
theorem foldl_le_guard (f : ℕ → List (Finset ℕ)) :
    ∀ (l : List ℕ) (init : List (Finset ℕ)),
      l.foldl (fun elements rank => if rank ≤ rank then elements ++ f rank else elements)
          init = init ++ l.flatMap f := by
  intro l
  induction l with
  | nil => intro init; simp
  | cons r t ih =>
      intro init
      rw [List.foldl_cons, if_pos (le_refl r), List.flatMap_cons, ih, List.append_assoc]

/-- A concrete view with occupied ranks 0 and 2 (listed out of order to
exercise the sorting of `allranks`). -/
def hvEx : HyperEdgeView :=
  ⟨[(2, [({0, 1, 2}, 11)]), (0, [({0}, 10), ({1}, 12)])], by decide⟩

/-- The empty view. -/
def hvEmpty : HyperEdgeView :=
  ⟨[], by decide⟩

/-- C1: on a view with at least one occupied rank, an `upper`/`up` or
`lower`/`down` skeleton query returns the sorted list of the element-set
keys of all occupied ranks, regardless of the requested bound, because the
loop guard compares the (shadowing) loop variable with itself. -/
theorem skeleton_upper_lower_ignores_bound (hv : HyperEdgeView)
    (hne : hv.hyperedge_dict ≠ []) (r₁ r₂ : ℕ) (level : Option String)
    (hlev : level = some "upper" ∨ level = some "up" ∨
      level = some "lower" ∨ level = some "down") :
    hv.skeleton r₁ level = some (sortKeys hv.allKeysAsc) ∧
    hv.skeleton r₁ level = hv.skeleton r₂ level := by
  have hmain : ∀ r : ℕ, hv.skeleton r level = some (sortKeys hv.allKeysAsc) := by
    intro r
    unfold HyperEdgeView.skeleton
    rcases hlev with h | h | h | h <;> subst h
    · rw [if_neg (by decide), if_pos (by decide), foldl_ge_guard, List.nil_append]
      rfl
    · rw [if_neg (by decide), if_pos (by decide), foldl_ge_guard, List.nil_append]
      rfl
    · rw [if_neg (by decide), if_neg (by decide), if_pos (by decide), foldl_le_guard,
        List.nil_append]
      rfl
    · rw [if_neg (by decide), if_neg (by decide), if_pos (by decide), foldl_le_guard,
        List.nil_append]
      rfl
  exact ⟨hmain r₁, (hmain r₁).trans (hmain r₂).symm⟩

/-- Witness for C1 at the concrete view `hvEx`, bounds 5 and 0, level
`upper`. -/
theorem skeleton_upper_lower_ignores_bound_witness :
    hvEx.hyperedge_dict ≠ [] ∧
    (hvEx.skeleton 5 (some "upper") = some (sortKeys hvEx.allKeysAsc) ∧
      hvEx.skeleton 5 (some "upper") = hvEx.skeleton 0 (some "upper")) :=
  ⟨by decide,
    skeleton_upper_lower_ignores_bound hvEx (by decide) 5 0 (some "upper") (Or.inl rfl)⟩

/-- C9: `get_rank` on the empty element set returns rank 0 on every view,
including the empty one, without failing. -/
theorem get_rank_empty (hv : HyperEdgeView) : hv.get_rank ∅ = some 0 := by
  unfold HyperEdgeView.get_rank
  rw [if_pos rfl]

/-- C4: for a non-empty key, `get_rank` returns the smallest occupied rank
whose bucket contains the normalized key (the ascending scan stops at the
first hit), and fails exactly when no bucket contains it. -/
theorem get_rank_minimal (hv : HyperEdgeView) (s : Finset ℕ) (hs : s ≠ ∅) :
    (∀ r, hv.get_rank s = some r →
        r ∈ hv.allranks ∧ s ∈ hv.bucketKeys r ∧ ∀ r' < r, s ∉ hv.bucketKeys r') ∧
    (hv.get_rank s = Option.none ↔ ∀ r, s ∉ hv.bucketKeys r) := by
  constructor
  · intro r hr
    unfold HyperEdgeView.get_rank at hr
    rw [if_neg hs] at hr
    have hmem := List.mem_of_find?_eq_some hr
    have hp : s ∈ hv.bucketKeys r := by simpa using List.find?_some hr
    refine ⟨hmem, hp, ?_⟩
    intro r' hlt hmem'
    have hr'' : r' ∈ hv.allranks := by
      rw [hv.mem_allranks]
      by_contra hnot
      rw [hv.bucketKeys_of_not_mem r' hnot] at hmem'
      exact List.not_mem_nil s hmem'
    have hle := find?_sorted_first hv.allranks_sorted hr r' hr'' (by simpa using hmem')
    omega
  · unfold HyperEdgeView.get_rank
    rw [if_neg hs, List.find?_eq_none]
    constructor
    · intro h r hmem'
      by_cases hocc : r ∈ hv.allranks
      · exact h r hocc (by simpa using hmem')
      · rw [hv.bucketKeys_of_not_mem r (fun hc => hocc ((hv.mem_allranks r).mpr hc))] at hmem'
        exact List.not_mem_nil s hmem'
    · intro h r _
      simpa using h r

/-- Witness for C4 at the concrete view `hvEx` and the key `{0, 1, 2}`. -/
theorem get_rank_minimal_witness :
    ({0, 1, 2} : Finset ℕ) ≠ ∅ ∧
    (hvEx.get_rank {0, 1, 2} = Option.none ↔
      ∀ r, ({0, 1, 2} : Finset ℕ) ∉ hvEx.bucketKeys r) :=
  ⟨by decide, (get_rank_minimal hvEx {0, 1, 2} (by decide)).2⟩

/-- C8: skeleton with mode `equal` returns the sorted list of the keys
stored exactly at the requested rank (a sorted permutation of the bucket
of that rank), and the empty list when the rank is unoccupied. -/
theorem skeleton_equal_exact (hv : HyperEdgeView) (rank : ℕ) :
    hv.skeleton rank (some "equal") = some (sortKeys (hv.bucketKeys rank)) ∧
    (sortKeys (hv.bucketKeys rank)).Perm (hv.bucketKeys rank) ∧
    (sortKeys (hv.bucketKeys rank)).Sorted keyLe ∧
    (rank ∉ hv.allranks → hv.skeleton rank (some "equal") = some []) := by
  refine ⟨?_, List.perm_insertionSort keyLe _, List.sorted_insertionSort keyLe _, ?_⟩
  · unfold HyperEdgeView.skeleton
    rw [if_pos (Or.inr rfl)]
    by_cases hmem : rank ∈ hv.allranks
    · rw [if_pos hmem]
    · rw [if_neg hmem,
        hv.bucketKeys_of_not_mem rank (fun hc => hmem ((hv.mem_allranks rank).mpr hc))]
      rfl
  · intro hmem
    unfold HyperEdgeView.skeleton
    rw [if_pos (Or.inr rfl), if_neg hmem]

/-- Witness for C8 at the concrete view `hvEx` and the unoccupied rank 5. -/
theorem skeleton_equal_exact_witness :
    (5 ∉ hvEx.allranks) ∧ hvEx.skeleton 5 (some "equal") = some [] :=
  ⟨by decide, (skeleton_equal_exact hvEx 5).2.2.2 (by decide)⟩

/-- C7 counterexample: level `"up"` is accepted by the code (no error is
raised), yet it is not one of `equal`, `upper`, `lower`. -/
theorem skeleton_mode_up_accepted :
    hvEmpty.skeleton 0 (some "up") ≠ Option.none ∧
    (some "up" : Option String) ∉ [some "equal", some "upper", some "lower"] := by
  decide

/-- C7 amended: skeleton errors exactly when the level is none of the six
accepted spellings: `None`, `equal`, `upper`, `up`, `lower`, `down`. -/
theorem skeleton_error_iff (hv : HyperEdgeView) (rank : ℕ) (level : Option String) :
    hv.skeleton rank level = Option.none ↔
      level ∉ [Option.none, some "equal", some "upper", some "up",
        some "lower", some "down"] := by
  unfold HyperEdgeView.skeleton
  split_ifs with h1 h2 h3
  · constructor
    · intro h
      exact absurd h (by simp)
    · intro h
      exact absurd (by rcases h1 with h1 | h1 <;> simp [h1]) h
  · constructor
    · intro h
      exact absurd h (by simp)
    · intro h
      exact absurd (by rcases h2 with h2 | h2 <;> simp [h2]) h
  · constructor
    · intro h
      exact absurd h (by simp)
    · intro h
      exact absurd (by rcases h3 with h3 | h3 <;> simp [h3]) h
  · constructor
    · intro _ hmem
      simp only [List.mem_cons, List.not_mem_nil, or_false] at hmem
      rcases hmem with h | h | h | h | h | h
      · exact h1 (Or.inl h)
      · exact h1 (Or.inr h)
      · exact h2 (Or.inl h)
      · exact h2 (Or.inr h)
      · exact h3 (Or.inl h)
      · exact h3 (Or.inr h)
    · intro _
      rfl

/-- C5: key normalization of an input that is neither iterable nor hashable
fails (the final `frozenset(...)` call raises), and so does every lookup
that invokes the normalization, such as `__getitem__`. -/
theorem to_frozen_set_invalid (o : PyObj) (h1 : o.isIterable = false)
    (h2 : o.isHashable = false) :
    HyperEdgeView.to_frozen_set o = Option.none ∧
    ∀ hv : HyperEdgeView, hv.getitem o = Option.none := by
  cases o with
  | iter xs => simp [PyObj.isIterable] at h1
  | atom a => simp [PyObj.isHashable] at h2
  | bad => exact ⟨rfl, fun hv => rfl⟩

/-- Witness for C5 at the non-iterable, non-hashable input shape. -/
theorem to_frozen_set_invalid_witness :
    PyObj.bad.isIterable = false ∧ PyObj.bad.isHashable = false ∧
    (HyperEdgeView.to_frozen_set PyObj.bad = Option.none ∧
      ∀ hv : HyperEdgeView, hv.getitem PyObj.bad = Option.none) :=
  ⟨rfl, rfl, to_frozen_set_invalid PyObj.bad rfl rfl⟩

/-- The empty simplex view (`SimplexView()`: `max_dim = -1`, no buckets). -/
def svEmpty : SimplexView :=
  ⟨-1, [], by decide⟩

/-- A simplex view holding the vertices 0, 1 and the edge 01. -/
def svEx : SimplexView :=
  ⟨1, [[{0}, {1}], [{0, 1}]], by decide⟩

/-- On an iterable input the simplex membership test always produces a
boolean: the size guard keeps the bucket index within `faces_dict`. -/
theorem SimplexView.contains_iter_isSome (sv : SimplexView) (xs : List ℕ) :
    (sv.contains (PyObj.iter xs)).isSome := by
  simp only [SimplexView.contains]
  by_cases hc : 0 < xs.toFinset.card ∧ (xs.toFinset.card : ℤ) ≤ sv.max_dim + 1
  · rw [if_pos hc]
    have hinv := sv.dim_inv
    have hlt : xs.toFinset.card - 1 < sv.faces_dict.length := by omega
    rw [List.getElem?_eq_getElem hlt]
    rfl
  · rw [if_neg hc]
    rfl

/-- C6 counterexample: testing a hashable non-iterable against the empty
simplex view indexes `faces_dict[0]` and raises `IndexError` instead of
returning a boolean. -/
theorem simplex_contains_raises_on_empty :
    svEmpty.contains (PyObj.atom 0) = Option.none := rfl

/-- C6 amended: the membership tests return a boolean except in two precise
states: `SimplexView` raises on a hashable non-iterable when the view is
empty, and `HyperEdgeView` raises on a hashable non-iterable when the view
is non-empty but rank 0 is unoccupied; `CellView` never raises. -/
theorem contains_error_characterization :
    (∀ (cv : CellView) (o : PyObj), (cv.contains o).isSome) ∧
    (∀ (sv : SimplexView) (o : PyObj),
      sv.contains o = Option.none ↔ (∃ a, o = PyObj.atom a) ∧ sv.faces_dict = []) ∧
    (∀ (hv : HyperEdgeView) (o : PyObj),
      hv.contains o = Option.none ↔ (∃ a, o = PyObj.atom a) ∧
        hv.hyperedge_dict ≠ [] ∧ 0 ∉ hv.hyperedge_dict.map Prod.fst) := by
  refine ⟨?_, ?_, ?_⟩
  · intro cv o
    cases o <;> simp [CellView.contains]
  · intro sv o
    cases o with
    | iter xs =>
        constructor
        · intro h
          have hsome := sv.contains_iter_isSome xs
          rw [h] at hsome
          simp at hsome
        · rintro ⟨⟨a, ha⟩, _⟩
          cases ha
    | atom a =>
        simp only [SimplexView.contains]
        constructor
        · intro h
          rw [Option.map_eq_none', List.getElem?_eq_none_iff] at h
          exact ⟨⟨a, rfl⟩, List.length_eq_zero.mp (Nat.le_zero.mp h)⟩
        · rintro ⟨_, hnil⟩
          rw [hnil]
          rfl
    | bad =>
        simp only [SimplexView.contains]
        constructor
        · intro h
          simp at h
        · rintro ⟨⟨a, ha⟩, _⟩
          cases ha
  · intro hv o
    cases o with
    | iter xs =>
        simp only [HyperEdgeView.contains]
        constructor
        · intro h
          split_ifs at h <;> simp_all
        · rintro ⟨⟨a, ha⟩, _⟩
          cases ha
    | atom a =>
        simp only [HyperEdgeView.contains]
        by_cases hd : hv.hyperedge_dict = []
        · rw [if_pos hd]
          constructor
          · intro h
            simp at h
          · rintro ⟨_, hne, _⟩
            exact absurd hd hne
        · rw [if_neg hd]
          by_cases h0 : 0 ∈ hv.hyperedge_dict.map Prod.fst
          · rw [if_pos h0]
            constructor
            · intro h
              simp at h
            · rintro ⟨_, _, h0x⟩
              exact absurd h0 h0x
          · rw [if_neg h0]
            exact ⟨fun _ => ⟨⟨a, rfl⟩, hd, h0⟩, fun _ => rfl⟩
    | bad =>
        simp only [HyperEdgeView.contains]
        constructor
        · intro h
          split_ifs at h <;> simp_all
        · rintro ⟨⟨a, ha⟩, _⟩
          cases ha

/-- C10: on iterable inputs the simplex membership test is total: it
answers `False` when the frozen input is empty or larger than
`max_dim + 1`, and otherwise reports membership in the bucket at index
`size - 1`, which the size guard keeps in range. -/
theorem simplex_contains_iterable_total (sv : SimplexView) (xs : List ℕ) :
    (sv.contains (PyObj.iter xs)).isSome ∧
    ((xs.toFinset = ∅ ∨ sv.max_dim + 1 < (xs.toFinset.card : ℤ)) →
      sv.contains (PyObj.iter xs) = some false) ∧
    (xs.toFinset ≠ ∅ → (xs.toFinset.card : ℤ) ≤ sv.max_dim + 1 →
      sv.contains (PyObj.iter xs) =
        some (decide (xs.toFinset ∈ (sv.faces_dict[xs.toFinset.card - 1]?).getD []))) := by
  refine ⟨sv.contains_iter_isSome xs, ?_, ?_⟩
  · intro hout
    simp only [SimplexView.contains]
    rw [if_neg]
    rintro ⟨hpos, hle⟩
    rcases hout with hemp | hbig
    · rw [hemp] at hpos
      simp at hpos
    · omega
  · intro hne hle
    have hpos : 0 < xs.toFinset.card := Finset.card_pos.mpr (Finset.nonempty_iff_ne_empty.mpr hne)
    simp only [SimplexView.contains]
    rw [if_pos ⟨hpos, hle⟩]
    have hinv := sv.dim_inv
    have hlt : xs.toFinset.card - 1 < sv.faces_dict.length := by omega
    rw [List.getElem?_eq_getElem hlt]
    rfl

/-- Witness for C10 at the concrete view `svEx` and the input `[0, 1]`. -/
theorem simplex_contains_iterable_total_witness :
    ([0, 1] : List ℕ).toFinset ≠ ∅ ∧
    ((([0, 1] : List ℕ).toFinset.card : ℤ) ≤ svEx.max_dim + 1) ∧
    svEx.contains (PyObj.iter [0, 1]) =
      some (decide (([0, 1] : List ℕ).toFinset ∈
        (svEx.faces_dict[([0, 1] : List ℕ).toFinset.card - 1]?).getD [])) :=
  ⟨by decide, by decide,
    (simplex_contains_iterable_total svEx [0, 1]).2.2 (by decide) (by decide)⟩

/-- Scanning an appended cell table for a key absent from the first part
reaches the second part. -/
theorem find?_key_append_right (cells cells' : List (Finset ℕ × List ℕ)) (s : Finset ℕ)
    (h : s ∉ cells.map Prod.fst) :
    (cells ++ cells').find? (fun p => p.1 == s) = cells'.find? (fun p => p.1 == s) := by
  induction cells with
  | nil => rfl
  | cons q t ih =>
      simp only [List.map_cons, List.mem_cons] at h
      push_neg at h
      rw [List.cons_append, List.find?_cons_of_neg _ (by simpa using h.1.symm)]
      exact ih h.2

/-- Updating the bucket of a key absent from a cell table changes nothing. -/
theorem map_update_of_not_mem (cells : List (Finset ℕ × List ℕ)) (s : Finset ℕ) (p : ℕ)
    (h : s ∉ cells.map Prod.fst) :
    cells.map (fun q => if q.1 = s then (q.1, q.2 ++ [p]) else q) = cells := by
  induction cells with
  | nil => rfl
  | cons q t ih =>
      simp only [List.map_cons, List.mem_cons] at h
      push_neg at h
      rw [List.map_cons, if_neg h.1.symm, ih h.2]

/-- Inserting a cell with a fresh element set appends a fresh singleton
bucket. -/
theorem insert_cell_cells_fresh (cv : CellView) (b : List ℕ) (p : ℕ)
    (h : b.toFinset ∉ cv.cells.map Prod.fst) :
    (cv.insert_cell b p).cells = cv.cells ++ [(b.toFinset, [p])] := by
  unfold CellView.insert_cell
  rw [dif_neg h]

/-- Inserting a cell whose element set is already a key appends the payload
to the bucket of that key. -/
theorem insert_cell_cells_existing (cv : CellView) (b : List ℕ) (p : ℕ)
    (h : b.toFinset ∈ cv.cells.map Prod.fst) :
    (cv.insert_cell b p).cells =
      cv.cells.map (fun q => if q.1 = b.toFinset then (q.1, q.2 ++ [p]) else q) := by
  unfold CellView.insert_cell
  rw [dif_pos h]

/-- C3: the cell lookup surfaces multiplicity: a single identity under the
resolved element set yields its single payload, several identities yield
the ordered list of all payloads; and inserting two cells with the same
element set but different boundary orderings grows `len` by 2 and makes the
lookup return the 2-element ordered payload list. -/
theorem cellView_lookup_multiplicity :
    (∀ (cv : CellView) (s : Finset ℕ) (ps : List ℕ), cv.getBucket s = some ps →
      (∀ p, ps = [p] → cv.getitem s = some (Sum.inl p)) ∧
      (2 ≤ ps.length → cv.getitem s = some (Sum.inr ps))) ∧
    (∀ (cv : CellView) (b₁ b₂ : List ℕ) (p₁ p₂ : ℕ),
      b₁.toFinset = b₂.toFinset → b₁ ≠ b₂ → b₁.toFinset ∉ cv.cells.map Prod.fst →
      ((cv.insert_cell b₁ p₁).insert_cell b₂ p₂).clen = cv.clen + 2 ∧
      ((cv.insert_cell b₁ p₁).insert_cell b₂ p₂).getitem b₁.toFinset =
        some (Sum.inr [p₁, p₂])) := by
  constructor
  · intro cv s ps hps
    constructor
    · intro p hp
      subst hp
      unfold CellView.getitem
      rw [hps]
    · intro hlen
      unfold CellView.getitem
      rw [hps]
      rcases ps with _ | ⟨a, _ | ⟨b, t⟩⟩
      · simp at hlen
      · simp at hlen
      · rfl
  · intro cv b₁ b₂ p₁ p₂ hss hne hfresh
    have hmem2 : b₂.toFinset ∈ (cv.insert_cell b₁ p₁).cells.map Prod.fst := by
      rw [insert_cell_cells_fresh cv b₁ p₁ hfresh, List.map_append, ← hss]
      simp
    have hcells : ((cv.insert_cell b₁ p₁).insert_cell b₂ p₂).cells =
        cv.cells ++ [(b₁.toFinset, [p₁, p₂])] := by
      rw [insert_cell_cells_existing _ b₂ p₂ hmem2,
        insert_cell_cells_fresh cv b₁ p₁ hfresh, ← hss, List.map_append,
        map_update_of_not_mem cv.cells b₁.toFinset p₂ hfresh]
      simp
    constructor
    · unfold CellView.clen
      rw [hcells, List.map_append, List.sum_append]
      simp [CellView.clen]
    · have hbucket : ((cv.insert_cell b₁ p₁).insert_cell b₂ p₂).getBucket b₁.toFinset =
          some [p₁, p₂] := by
        unfold CellView.getBucket
        rw [hcells, find?_key_append_right _ _ _ hfresh,
          List.find?_cons_of_pos _ (by simp)]
        rfl
      unfold CellView.getitem
      rw [hbucket]

/-- The empty cell view. -/
def cvEmpty : CellView :=
  ⟨[], by decide⟩

/-- Witness for C3: inserting the boundaries `(0,1,2)` and `(0,2,1)` into
the empty cell view. -/
theorem cellView_lookup_multiplicity_witness :
    ([0, 1, 2] : List ℕ).toFinset = ([0, 2, 1] : List ℕ).toFinset ∧
    ([0, 1, 2] : List ℕ) ≠ [0, 2, 1] ∧
    ([0, 1, 2] : List ℕ).toFinset ∉ cvEmpty.cells.map Prod.fst ∧
    (((cvEmpty.insert_cell [0, 1, 2] 3).insert_cell [0, 2, 1] 4).clen = cvEmpty.clen + 2 ∧
      ((cvEmpty.insert_cell [0, 1, 2] 3).insert_cell [0, 2, 1] 4).getitem
        ([0, 1, 2] : List ℕ).toFinset = some (Sum.inr [3, 4])) :=
  ⟨by decide, by decide, by decide,
    cellView_lookup_multiplicity.2 cvEmpty [0, 1, 2] [0, 2, 1] 3 4
      (by decide) (by decide) (by decide)⟩

/-- The test graph of `test_graph_to_clique_complex`: a triangle `0-1-2`
glued to a triangle `0-2-3` along the edge `0-2`. -/
def gEx : SGraph :=
  ⟨[0, 1, 2, 3], [(0, 1), (1, 2), (2, 0), (2, 3), (3, 0)]⟩

/-- C2: on the two-triangle graph, the clique complex with no cap has
dimension 2 and contains both triangles; capped at `max_dim = 2` it has
dimension 1 and contains neither triangle. -/
theorem clique_complex_two_triangles :
    scDim (graph_to_clique_complex gEx Option.none) = 2 ∧
    ({0, 1, 2} : Finset ℕ) ∈ graph_to_clique_complex gEx Option.none ∧
    ({0, 2, 3} : Finset ℕ) ∈ graph_to_clique_complex gEx Option.none ∧
    scDim (graph_to_clique_complex gEx (some 2)) = 1 ∧
    ({0, 1, 2} : Finset ℕ) ∉ graph_to_clique_complex gEx (some 2) ∧
    ({0, 2, 3} : Finset ℕ) ∉ graph_to_clique_complex gEx (some 2) := by
  decide
